import Mathlib

/-!
# Verification of the tsc-baseline diagnostic ingestion-and-diff engine

A shallow embedding of the core of `tsc-baseline` (src/unnamed/part_002 of the
repository: the current `util.ts`): parsing raw TypeScript compiler output into
structured diagnostics, identity hashing, aggregation into counted summaries,
the versioned baseline document store, the delta engine, and the report
formatters.  JavaScript `Map`s are embedded as association lists with
JavaScript `Map.set`/`Map.get` semantics, the persisted JSON document as an
explicit JSON value type, and functions that `throw` as `Except`-valued
functions.
-/

namespace TscBaseline

/-- Structure `ErrorSummary` from the source: an identity-deduplicated aggregate.
`message` is optional (`message?: string`); it is omitted when message-based
identity is disabled. -/
structure ErrorSummary where
  code : String
  count : Nat
  file : String
  line : Nat
  message : Option String
deriving DecidableEq, Repr

/-- Structure `SpecificError` from the source: one concrete diagnostic occurrence. -/
structure SpecificError where
  code : String
  column : Nat
  file : String
  line : Nat
  message : String
deriving DecidableEq, Repr

/-- Structure `ErrorOptions` from the source. -/
structure ErrorOptions where
  ignoreMessages : Bool
deriving DecidableEq, Repr

/-- Constant `CURRENT_BASELINE_VERSION` from the source. -/
def CURRENT_BASELINE_VERSION : Nat := 1

/-! ## JavaScript `Map` embedding

A JavaScript `Map` with string keys is an association list in insertion
order.  `Map.get` returns the value of the (unique) entry with the key;
`Map.set` overwrites an existing entry in place, otherwise appends. -/

/-- JavaScript `Map.get`. -/
def jsMapGet (m : List (String × α)) (k : String) : Option α :=
  (m.find? (fun p => p.1 = k)).map (·.2)

/-- JavaScript `Map.has`. -/
def jsMapHas (m : List (String × α)) (k : String) : Bool :=
  m.any (fun p => p.1 = k)

/-- JavaScript `Map.set`: update in place when the key exists, append otherwise. -/
def jsMapSet (m : List (String × α)) (k : String) (v : α) : List (String × α) :=
  if m.any (fun p => p.1 = k) then
    m.map (fun p => if p.1 = k then (k, v) else p)
  else
    m ++ [(k, v)]

/-- Copying an iterable of entries into a fresh map (`new Map(entries)`,
`Object.fromEntries(entries)`, or an entry-by-entry copy loop): later entries
with a duplicate key overwrite the earlier value in place. -/
def jsFromEntries (l : List (String × α)) : List (String × α) :=
  l.foldl (fun acc p => jsMapSet acc p.1 p.2) []

abbrev ErrorSummaryMap := List (String × ErrorSummary)
abbrev SpecificErrorsMap := List (String × List SpecificError)

/-! ## Identity hasher -/

/-- Modelled from the spec: the external `object-hash` library computes a
deterministic, collision-resistant content hash from a canonical serialization
of the given object (explicit type tags and canonicalized field order, so two
field-equal objects hash identically regardless of construction order).  We
embed the hash as that canonical serialization itself: it is deterministic,
and depends on exactly the listed fields. -/
def objectHash (fields : List (String × String)) : String :=
  String.intercalate "," (fields.map (fun p => p.1 ++ ":" ++ p.2))

/-- The serialization of a possibly-absent string field (an absent field is
read back as JavaScript `undefined` before being hashed). -/
def encodeOptField : Option String → String
  | none => "undefined"
  | some s => "string:" ++ s

/-- Function `getErrorSummaryHash` from the source: hash only the identity fields
`{code, file, message}` (or `{code, file}` when `ignoreMessages`), never
`count` or `line`. -/
def getErrorSummaryHash (errorSummary : ErrorSummary) (opts : ErrorOptions) : String :=
  if opts.ignoreMessages then
    objectHash [("code", errorSummary.code), ("file", errorSummary.file)]
  else
    objectHash [("code", errorSummary.code), ("file", errorSummary.file),
                ("message", encodeOptField errorSummary.message)]

/-! ## Diagnostic line parser

The source matches each line against the JavaScript regular expression
`/^(.+)\((\d+),(\d+)\): error (\w+): (.+)$/`.  We embed the exact backtracking
semantics: `.` matches any character except a line terminator, `\d` is
`[0-9]`, `\w` is `[A-Za-z0-9_]`, and the leading `(.+)` is greedy, so the file
group extends to the *last* `(` whose suffix completes the match. -/

/-- The characters matched by `.` in a JavaScript regex (no `s` flag): any
character except the four line terminators. -/
def isDot (c : Char) : Bool :=
  !(c = '\n' || c = '\r' || c = '\u2028' || c = '\u2029')

/-- The characters matched by `\w`. -/
def isWordChar (c : Char) : Bool :=
  ('a' ≤ c && c ≤ 'z') || ('A' ≤ c && c ≤ 'Z') || ('0' ≤ c && c ≤ '9') || c = '_'

/-- The characters matched by `\d`. -/
def isDigitChar (c : Char) : Bool :=
  '0' ≤ c && c ≤ '9'

/-- JavaScript `parseInt` on a string of decimal digits. -/
def digitsToNat (ds : List Char) : Nat :=
  ds.foldl (fun acc c => 10 * acc + (c.toNat - '0'.toNat)) 0

/-- Matching the fixed-shape suffix `(\d+),(\d+)\): error (\w+): (.+)$` against
the characters that follow the `(` closing the file group.  Each quantified
sub-pattern is followed by a character it cannot match, so backtracking inside
the suffix is vacuous: the maximal runs are forced. -/
def parseTail (cs : List Char) : Option (Nat × Nat × String × String) :=
  let ds1 := cs.takeWhile isDigitChar
  let r1 := cs.dropWhile isDigitChar
  if ds1.isEmpty then none else
  match r1 with
  | ',' :: r2 =>
    let ds2 := r2.takeWhile isDigitChar
    let r3 := r2.dropWhile isDigitChar
    if ds2.isEmpty then none else
    match r3 with
    | ')' :: ':' :: ' ' :: 'e' :: 'r' :: 'r' :: 'o' :: 'r' :: ' ' :: r4 =>
      let w := r4.takeWhile isWordChar
      let r5 := r4.dropWhile isWordChar
      if w.isEmpty then none else
      match r5 with
      | ':' :: ' ' :: msg =>
        if msg.isEmpty || !msg.all isDot then none
        else some (digitsToNat ds1, digitsToNat ds2, String.mk w, String.mk msg)
      | _ => none
    | _ => none
  | _ => none

/-- The backtracking search for the split between the greedy file group and
the `\(` of the pattern: the recursion first tries to extend the file group
(the greedy choice) and only on failure closes it at the current `(`. -/
def scanFile (acc : List Char) : List Char → Option SpecificError
  | [] => none
  | c :: rest =>
    match (if isDot c then scanFile (acc ++ [c]) rest else none) with
    | some e => some e
    | none =>
      if c = '(' && !acc.isEmpty then
        match parseTail rest with
        | some (l, col, code, msg) =>
          some { file := String.mk acc, code := code, message := msg, line := l, column := col }
        | none => none
      else none

/-- JavaScript `line.match(errorPattern)` for one line of the error log, packaged as the
`SpecificError` the source builds from the five capture groups. -/
def matchErrorLine (line : String) : Option SpecificError :=
  scanFile [] line.toList

/-! ## Summary aggregator -/

/-- The summary object literal the source builds for one occurrence
(`{ file, code, line, count: 1 }`, plus `message` unless `ignoreMessages`). -/
def mkSummary (opts : ErrorOptions) (e : SpecificError) : ErrorSummary :=
  { file := e.file, code := e.code, line := e.line, count := 1,
    message := if opts.ignoreMessages then none else some e.message }

/-- Function `addSpecificErrorToMap` from the source: append the occurrence to its
file's sequence, creating the sequence on first sight. -/
def addSpecificErrorToMap (m : SpecificErrorsMap) (filePathName : String)
    (error : SpecificError) : SpecificErrorsMap :=
  match jsMapGet m filePathName with
  | some existingFile => jsMapSet m filePathName (existingFile ++ [error])
  | none => jsMapSet m filePathName [error]

/-- Function `addErrorToSummary` from the source: compute the identity hash of the
occurrence's fresh summary; if the key is new insert that summary
(`count = 1`), otherwise store a copy of the *existing* summary with its count
incremented (so every field but `count` keeps its first-inserted value). -/
def addErrorToSummary (opts : ErrorOptions) (m : ErrorSummaryMap)
    (error : SpecificError) : ErrorSummaryMap :=
  let errorSummary := mkSummary opts error
  let key := getErrorSummaryHash errorSummary opts
  match jsMapGet m key with
  | some existingError => jsMapSet m key { existingError with count := existingError.count + 1 }
  | none => jsMapSet m key errorSummary

/-- Structure `ParsingResult` from the source. -/
structure ParsingResult where
  errorSummaryMap : ErrorSummaryMap
  specificErrorsMap : SpecificErrorsMap
deriving DecidableEq, Repr

/-- The body of the source's `for (const line of lines)` loop. -/
def parseStep (opts : ErrorOptions) (st : ParsingResult) (line : String) : ParsingResult :=
  match matchErrorLine line with
  | some error =>
    { specificErrorsMap := addSpecificErrorToMap st.specificErrorsMap error.file error,
      errorSummaryMap := addErrorToSummary opts st.errorSummaryMap error }
  | none => st

/-- The source's loop over the already-split lines. -/
def parseLines (opts : ErrorOptions) (lines : List String) : ParsingResult :=
  lines.foldl (parseStep opts) ⟨[], []⟩

/-- JavaScript `String.prototype.split('\n')`: the list of chunks between
newline characters, in order; splitting the empty string gives `[""]`. -/
def jsSplitNewlines : List Char → List (List Char)
  | [] => [[]]
  | c :: rest =>
    if c = '\n' then [] :: jsSplitNewlines rest
    else
      match jsSplitNewlines rest with
      | l :: ls => (c :: l) :: ls
      | [] => [[c]]

/-- Function `parseTypeScriptErrors` from the source: split the blob on `'\n'` and feed
every line through the pattern match and the two map-building helpers. -/
def parseTypeScriptErrors (errorLog : String) (opts : ErrorOptions) : ParsingResult :=
  parseLines opts ((jsSplitNewlines errorLog.toList).map String.mk)

/-! ## Delta engine -/

/-- The body of the source's `for (const [id, error] of newErrors)` loop. -/
def getNewErrorsStep (oldErrors newErrors : ErrorSummaryMap)
    (result : ErrorSummaryMap) (p : String × ErrorSummary) : ErrorSummaryMap :=
  let id := p.1
  let error := p.2
  if !(jsMapHas oldErrors id) then
    jsMapSet result id error
  else
    let oldErrCount := ((jsMapGet oldErrors id).map ErrorSummary.count).getD 0
    let newErrCount := ((jsMapGet newErrors id).map ErrorSummary.count).getD 0
    if oldErrCount < newErrCount then
      jsMapSet result id { error with count := newErrCount - oldErrCount }
    else result

/-- Function `getNewErrors` from the source. -/
def getNewErrors (oldErrors newErrors : ErrorSummaryMap) : ErrorSummaryMap :=
  newErrors.foldl (getNewErrorsStep oldErrors newErrors) []

/-- Function `getTotalErrorsCount` from the source. -/
def getTotalErrorsCount (errorMap : ErrorSummaryMap) : Nat :=
  (errorMap.map (·.2)).foldl (fun sum info => sum + info.count) 0

/-! ## Baseline document store

The baseline file holds one JSON document.  `writeTypeScriptErrorsToFile`
serializes with `JSON.stringify` and `readBaselineErrorsFile` parses with
`JSON.parse`; for the documents this program writes (no `undefined`, no
non-finite numbers) that text round trip is the identity, so we embed the file
contents as the parsed JSON document itself.  Functions that can raise a
JavaScript `TypeError` or `throw` are `Except`-valued. -/

/-- A JSON document (array values never occur in baseline documents and are
omitted). -/
inductive Json where
  | null
  | bool (b : Bool)
  | num (n : Nat)
  | str (s : String)
  | obj (fields : List (String × Json))

/-- JavaScript property access `j?.[k]` (optional chaining): `none` stands for
`undefined`. -/
def jsGet (j : Json) (k : String) : Option Json :=
  match j with
  | .obj fields => (fields.find? (fun p => p.1 = k)).map (·.2)
  | _ => none

/-- JavaScript `typeof v === 'object'`, which is `true` for objects *and* for `null`. -/
def jsTypeofIsObject : Json → Bool
  | .obj _ => true
  | .null => true
  | _ => false

/-- JavaScript `Object.entries(v)`: throws a `TypeError` on `undefined`/`null`, lists the
fields of an object, the indexed characters of a string, and nothing for other
primitives. -/
def jsEntries : Option Json → Except String (List (String × Json))
  | none => .error "TypeError: Cannot convert undefined to object"
  | some .null => .error "TypeError: Cannot convert null to object"
  | some (.obj fields) => .ok fields
  | some (.str s) =>
    .ok ((List.range s.length).zip (s.toList.map (fun c => Json.str (String.mk [c])))
          |>.map (fun p => (toString p.1, p.2)))
  | some _ => .ok []

/-- The JSON object `JSON.stringify` produces for one `ErrorSummary` (field
insertion order of the source's object literals; an absent optional `message`
is omitted, exactly as `stringify` omits `undefined` properties). -/
def encodeErrorSummary (s : ErrorSummary) : Json :=
  Json.obj ([("file", .str s.file), ("code", .str s.code),
             ("line", .num s.line), ("count", .num s.count)] ++
    (match s.message with
     | some m => [("message", Json.str m)]
     | none => []))

/-- Reading the summary fields back out of a stored JSON object the way the
program's consumers access them (`e.file`, `e.code`, …); absent or ill-typed
fields read back as the neutral defaults. -/
def decodeErrorSummary (j : Json) : ErrorSummary :=
  { file := match jsGet j "file" with | some (.str s) => s | _ => ""
    code := match jsGet j "code" with | some (.str s) => s | _ => ""
    line := match jsGet j "line" with | some (.num n) => n | _ => 0
    count := match jsGet j "count" with | some (.num n) => n | _ => 0
    message := match jsGet j "message" with | some (.str s) => some s | _ => none }

/-- The document `writeTypeScriptErrorsToFile` builds around a list of
already-serialized error entries (`meta` with the current version and the
recorded identity mode, then `errors` as an object built entry by entry). -/
def writeBaselineJson (entries : List (String × Json)) (ignoreMessages : Bool) : Json :=
  Json.obj
    [("meta", Json.obj [("baselineFileVersion", .num CURRENT_BASELINE_VERSION),
                        ("ignoreMessages", .bool ignoreMessages)]),
     ("errors", Json.obj (jsFromEntries entries))]

/-- Function `writeTypeScriptErrorsToFile` from the source: serialize a
`BaselineFile` document with the current version constant, the given identity
mode, and `Object.fromEntries(map)` as the `errors` object.  The result is the
(parsed form of the) file contents written at the path. -/
def writeTypeScriptErrorsToFile (map : ErrorSummaryMap) (errorOptions : ErrorOptions) : Json :=
  writeBaselineJson (map.map (fun p => (p.1, encodeErrorSummary p.2))) errorOptions.ignoreMessages

/-- Function `readBaselineErrorsFile` from the source: `JSON.parse` of the file text,
with no validation — the document is returned as parsed. -/
def readBaselineErrorsFile (fileContents : Json) : Json :=
  fileContents

/-- Function `getBaselineFileVersion` from the source:
`typeof baselineFile?.meta === 'object' && 'baselineFileVersion' in
baselineFile?.meta ? baselineFile?.meta?.baselineFileVersion : 0`.  Note the
JavaScript quirks embedded faithfully: `typeof null === 'object'`, and the
`in` operator applied to `null` raises a `TypeError`. -/
def getBaselineFileVersion (baselineFile : Json) : Except String Json :=
  match jsGet baselineFile "meta" with
  | some m =>
    if jsTypeofIsObject m then
      match m with
      | .null => .error "TypeError: Cannot use 'in' operator to search for 'baselineFileVersion' in null"
      | .obj fields =>
        if fields.any (fun p => p.1 = "baselineFileVersion") then
          .ok (((fields.find? (fun p => p.1 = "baselineFileVersion")).map (·.2)).getD .null)
        else .ok (.num 0)
      | _ => .ok (.num 0)
    else .ok (.num 0)
  | none => .ok (.num 0)

/-- JavaScript strict equality `v === n` for a number literal `n`. -/
def jsStrictEqNum (v : Json) (n : Nat) : Bool :=
  match v with
  | .num m => m = n
  | _ => false

/-- Function `isBaselineVersionCurrent` from the source:
`getBaselineFileVersion(baselineFile) === CURRENT_BASELINE_VERSION`. -/
def isBaselineVersionCurrent (baselineFile : Json) : Except String Bool :=
  (getBaselineFileVersion baselineFile).map (fun v => jsStrictEqNum v CURRENT_BASELINE_VERSION)

/-- Function `getErrorSummaryMap` from the source:
`new Map(Object.entries(baselineFile.errors))`. -/
def getErrorSummaryMap (baselineFile : Json) : Except String (List (String × Json)) :=
  (jsEntries (jsGet baselineFile "errors")).map jsFromEntries

/-- The error message `addHashToBaseline` throws on a stale or future
baseline. -/
def baselineNotCurrentMessage : String :=
  "The .tsc-baseline.json is not current. Please make sure your packages are up to date and save a new baseline file"

/-- The placeholder summary `addHashToBaseline` stores under the given hash. -/
def placeholderSummary : ErrorSummary :=
  { code := "0000", file := "0000", message := some "0000", line := 0, count := 1 }

/-- Function `addHashToBaseline` from the source: read the baseline document, throw
before any write when its version is not current, otherwise copy every entry
into a fresh map, `set` the given hash to the placeholder summary, and write
the document back with the recorded `meta.ignoreMessages` mode.  The result is
the contents written to the file; an `error` result means the function threw
with the stored document untouched. -/
def addHashToBaseline (hash : String) (fileContents : Json) : Except String Json :=
  match isBaselineVersionCurrent (readBaselineErrorsFile fileContents) with
  | .error e => .error e
  | .ok isCurrent =>
    if !isCurrent then
      .error baselineNotCurrentMessage
    else
      match getErrorSummaryMap (readBaselineErrorsFile fileContents) with
      | .error e => .error e
      | .ok oldErrors =>
        -- the copy loop `for (const [key, error] of oldErrors) newErrors.set(key, error)`
        -- followed by `newErrors.set(hash, placeholder)` and the write with the
        -- document's recorded `meta.ignoreMessages` flag
        .ok (writeBaselineJson
          (jsMapSet (jsFromEntries oldErrors) hash (encodeErrorSummary placeholderSummary))
          (match (jsGet (readBaselineErrorsFile fileContents) "meta").bind
              (fun m => jsGet m "ignoreMessages") with
            | some (.bool b) => b
            | _ => false))

/-! ## Report formatters -/

/-- The structured (GitLab code-quality) report entry type from the source. -/
structure GitLabLines where
  begin_ : Nat
deriving DecidableEq, Repr

structure GitLabLocation where
  lines : GitLabLines
  path : String
deriving DecidableEq, Repr

structure GitLabErrorFormat where
  check_name : String
  description : String
  fingerprint : String
  location : GitLabLocation
  severity : String
deriving DecidableEq, Repr

/-- JavaScript `s || d` for strings: the empty string is falsy. -/
def jsOrString (s d : String) : String :=
  if s = "" then d else s

/-- JavaScript `v || d` for an optional string (`undefined` and `""` falsy). -/
def jsOrOptString (v : Option String) (d : String) : String :=
  match v with
  | some s => jsOrString s d
  | none => d

/-- Function `formatForGitLab` from the source.  The callback casts each summary to
`any` and reads `error.hash` and `error.severity` — properties `ErrorSummary`
does not have, so both reads yield `undefined` and the `||` fallbacks always
win: every entry's fingerprint is the literal `'unknown-fingerprint'` and its
severity `'minor'`.  `error.line || 0` is the line itself (`0` when `0`). -/
def formatForGitLab (errors : ErrorSummaryMap) : List GitLabErrorFormat :=
  (errors.map (·.2)).map (fun error =>
    { description := jsOrOptString error.message "Unknown error message"
      check_name := "typescript-errors"
      fingerprint := "unknown-fingerprint"
      severity := "minor"
      location := { path := jsOrString error.file "unknown-file",
                    lines := { begin_ := error.line } } })

/-! ## Lemmas about the `Map` embedding -/

theorem jsMapGet_nil (k : String) : jsMapGet ([] : List (String × α)) k = none := rfl

theorem jsMapGet_cons (p : String × α) (m : List (String × α)) (k : String) :
    jsMapGet (p :: m) k = if p.1 = k then some p.2 else jsMapGet m k := by
  by_cases h : p.1 = k <;> simp [jsMapGet, List.find?_cons, h]

theorem jsMapHas_cons (p : String × α) (m : List (String × α)) (k : String) :
    jsMapHas (p :: m) k = (p.1 = k || jsMapHas m k) := by
  simp [jsMapHas]

theorem jsMapGet_append (m₁ m₂ : List (String × α)) (k : String) :
    jsMapGet (m₁ ++ m₂) k =
      match jsMapGet m₁ k with
      | some v => some v
      | none => jsMapGet m₂ k := by
  induction m₁ with
  | nil => simp [jsMapGet_nil]
  | cons p m₁ ih =>
    rw [List.cons_append, jsMapGet_cons, jsMapGet_cons]
    by_cases h : p.1 = k <;> simp [h, ih]

theorem jsMapHas_false_iff (m : List (String × α)) (k : String) :
    jsMapHas m k = false ↔ k ∉ m.map Prod.fst := by
  induction m with
  | nil => simp [jsMapHas]
  | cons p m ih =>
    rw [jsMapHas_cons]
    simp only [Bool.or_eq_false_iff, List.map_cons, List.mem_cons]
    rw [ih]
    constructor
    · rintro ⟨h1, h2⟩
      rintro (h | h)
      · exact absurd (by simpa using h.symm) (by simpa using h1)
      · exact h2 h
    · intro h
      refine ⟨by simpa using (fun e => h (Or.inl e.symm)), fun hm => h (Or.inr hm)⟩

theorem jsMapGet_eq_none_of_not_mem (m : List (String × α)) (k : String)
    (h : k ∉ m.map Prod.fst) : jsMapGet m k = none := by
  induction m with
  | nil => rfl
  | cons p m ih =>
    rw [jsMapGet_cons]
    simp only [List.map_cons, List.mem_cons] at h
    push_neg at h
    rw [if_neg (fun e => h.1 e.symm), ih h.2]

theorem jsMapGet_isSome_of_mem (m : List (String × α)) (k : String) (v : α)
    (h : (k, v) ∈ m) : (jsMapGet m k).isSome := by
  induction m with
  | nil => simp at h
  | cons p m ih =>
    rw [jsMapGet_cons]
    rcases List.mem_cons.mp h with h' | h'
    · subst h'; simp
    · by_cases hp : p.1 = k
      · simp [hp]
      · simpa [hp] using ih h'

theorem jsMapGet_eq_of_mem_nodup (m : List (String × α)) (k : String) (v : α)
    (hnd : (m.map Prod.fst).Nodup) (h : (k, v) ∈ m) : jsMapGet m k = some v := by
  induction m with
  | nil => simp at h
  | cons p m ih =>
    simp only [List.map_cons, List.nodup_cons] at hnd
    rw [jsMapGet_cons]
    rcases List.mem_cons.mp h with h' | h'
    · subst h'; simp
    · have hk : k ∈ m.map Prod.fst := List.mem_map.mpr ⟨(k, v), h', rfl⟩
      have hp : p.1 ≠ k := fun e => hnd.1 (e ▸ hk)
      rw [if_neg hp, ih hnd.2 h']

theorem jsMapSet_of_not_has (m : List (String × α)) (k : String) (v : α)
    (h : jsMapHas m k = false) : jsMapSet m k v = m ++ [(k, v)] := by
  simp only [jsMapHas] at h
  simp [jsMapSet, h]

/-- Lookups in the in-place-update branch of `jsMapSet`. -/
theorem jsMapGet_update (m : List (String × α)) (k : String) (v : α) (k' : String) :
    jsMapGet (m.map (fun p => if p.1 = k then (k, v) else p)) k' =
      if k' = k then (if jsMapHas m k then some v else none) else jsMapGet m k' := by
  induction m with
  | nil => by_cases h : k' = k <;> simp [jsMapGet_nil, jsMapHas, h]
  | cons p m ih =>
    by_cases hp : p.1 = k
    · by_cases hk' : k' = k
      · subst hk'
        simp [List.map_cons, jsMapGet_cons, jsMapHas_cons, hp]
      · have hpk' : ¬ p.1 = k' := fun e => hk' (e.symm.trans hp)
        have hkk' : ¬ k = k' := fun e => hk' e.symm
        simp [List.map_cons, jsMapGet_cons, jsMapHas_cons, hp, hk', hpk', hkk', ih]
    · by_cases hk' : k' = k
      · subst hk'
        have hpk' : ¬ p.1 = k' := hp
        simp [List.map_cons, jsMapGet_cons, jsMapHas_cons, hp, hpk', ih]
      · simp [List.map_cons, jsMapGet_cons, jsMapHas_cons, hp, hk', ih]

theorem jsMapGet_jsMapSet (m : List (String × α)) (k : String) (v : α) (k' : String) :
    jsMapGet (jsMapSet m k v) k' = if k' = k then some v else jsMapGet m k' := by
  unfold jsMapSet
  by_cases hhas : m.any (fun p => p.1 = k)
  · rw [if_pos hhas, jsMapGet_update]
    by_cases hk' : k' = k
    · simp only [hk', if_pos rfl]
      rw [if_pos (show jsMapHas m k = true from hhas)]
    · simp [hk']
  · rw [if_neg hhas, jsMapGet_append]
    have hfalse : jsMapHas m k = false :=
      Bool.eq_false_iff.mpr (show ¬ jsMapHas m k = true from hhas)
    by_cases hk' : k' = k
    · subst hk'
      rw [jsMapGet_eq_none_of_not_mem m k' ((jsMapHas_false_iff m k').mp hfalse)]
      simp [jsMapGet_cons]
    · rw [if_neg hk']
      have hkk' : ¬ k = k' := fun e => hk' (Eq.symm e)
      cases h : jsMapGet m k' <;>
        simp [jsMapGet_cons, jsMapGet_nil, hkk', h]

theorem jsMapSet_keys_nodup (m : List (String × α)) (k : String) (v : α)
    (h : (m.map Prod.fst).Nodup) : ((jsMapSet m k v).map Prod.fst).Nodup := by
  unfold jsMapSet
  by_cases hhas : m.any (fun p => p.1 = k)
  · rw [if_pos hhas]
    have heq : (m.map (fun p => if p.1 = k then (k, v) else p)).map Prod.fst = m.map Prod.fst := by
      rw [List.map_map]
      apply List.map_congr_left
      intro p _
      by_cases hp : p.1 = k <;> simp [hp]
    rw [heq]; exact h
  · rw [if_neg hhas, List.map_append, List.nodup_append]
    have hfalse : jsMapHas m k = false :=
      Bool.eq_false_iff.mpr (show ¬ jsMapHas m k = true from hhas)
    have hnotin : k ∉ m.map Prod.fst := (jsMapHas_false_iff m k).mp hfalse
    refine ⟨h, by simp, ?_⟩
    intro a ha
    simp only [List.map_cons, List.map_nil, List.mem_singleton]
    intro e
    subst e
    exact hnotin ha

theorem jsFromEntries_eq_self (l : List (String × α)) (h : (l.map Prod.fst).Nodup) :
    jsFromEntries l = l := by
  unfold jsFromEntries
  suffices H : ∀ (acc : List (String × α)),
      (∀ p ∈ l, jsMapHas acc p.1 = false) → ((l.map Prod.fst)).Nodup →
      l.foldl (fun acc p => jsMapSet acc p.1 p.2) acc = acc ++ l by
    simpa using H [] (fun p _ => rfl) h
  clear h
  induction l with
  | nil => intro acc _ _; simp
  | cons p l ih =>
    intro acc hdisj hnd
    simp only [List.map_cons, List.nodup_cons] at hnd
    simp only [List.foldl_cons]
    rw [jsMapSet_of_not_has acc p.1 p.2 (hdisj p (by simp))]
    rw [ih (acc ++ [(p.1, p.2)]) ?_ hnd.2]
    · simp
    · intro q hq
      rw [jsMapHas_false_iff]
      simp only [List.map_append, List.mem_append]
      push_neg
      refine ⟨(jsMapHas_false_iff acc q.1).mp (hdisj q (by simp [hq])), ?_⟩
      simp only [List.map_cons, List.map_nil, List.mem_singleton]
      intro e
      exact hnd.1 (e ▸ List.mem_map.mpr ⟨q, hq, rfl⟩)

theorem jsMapHas_eq_isSome (m : List (String × α)) (k : String) :
    jsMapHas m k = (jsMapGet m k).isSome := by
  induction m with
  | nil => rfl
  | cons p m ih =>
    rw [jsMapHas_cons, jsMapGet_cons]
    by_cases hp : p.1 = k <;> simp [hp, ih]

/-! ## The identity hash depends on exactly the identity fields -/

/-- Two summaries with equal identity fields (for the given mode) hash
identically; `count` and `line` never enter the hash input. -/
theorem getErrorSummaryHash_congr (opts : ErrorOptions) (s₁ s₂ : ErrorSummary)
    (hcode : s₁.code = s₂.code) (hfile : s₁.file = s₂.file)
    (hmsg : opts.ignoreMessages = false → s₁.message = s₂.message) :
    getErrorSummaryHash s₁ opts = getErrorSummaryHash s₂ opts := by
  unfold getErrorSummaryHash
  cases him : opts.ignoreMessages with
  | true => simp [hcode, hfile]
  | false => simp [hcode, hfile, hmsg him]

/-- Claim C1: The identity hash is deterministic and depends only on the
identity fields: whenever two `ErrorSummary` values agree on `code` and
`file`, and on `message` when `ignoreMessages` is off, `getErrorSummaryHash`
returns the same string — in particular the hash never depends on `count` or
`line`, and changing only those fields never changes the hash. -/
theorem identity_hash_depends_only_on_identity_fields :
    ∀ (opts : ErrorOptions) (s₁ s₂ : ErrorSummary),
      s₁.code = s₂.code → s₁.file = s₂.file →
      (opts.ignoreMessages = false → s₁.message = s₂.message) →
      getErrorSummaryHash s₁ opts = getErrorSummaryHash s₂ opts :=
  fun opts s₁ s₂ hcode hfile hmsg => getErrorSummaryHash_congr opts s₁ s₂ hcode hfile hmsg

/-- Claim C1, witness: Two summaries with the same identity but different
`count` and `line` hash identically. -/
theorem identity_hash_witness :
    getErrorSummaryHash ⟨"TS2322", 1, "src/a.ts", 10, some "Type mismatch"⟩ ⟨false⟩ =
      getErrorSummaryHash ⟨"TS2322", 57, "src/a.ts", 942, some "Type mismatch"⟩ ⟨false⟩ :=
  identity_hash_depends_only_on_identity_fields ⟨false⟩ _ _ rfl rfl (fun _ => rfl)

/-! ## The delta engine -/

/-- Processing an entry whose key already maps to an equal-count summary in
`oldErrors` leaves the accumulator unchanged. -/
theorem getNewErrorsStep_self (S acc : ErrorSummaryMap) (p : String × ErrorSummary)
    (h : p ∈ S) : getNewErrorsStep S S acc p = acc := by
  unfold getNewErrorsStep
  have hhas : jsMapHas S p.1 = true := by
    rw [jsMapHas_eq_isSome]
    exact jsMapGet_isSome_of_mem S p.1 p.2 h
  simp [hhas]

/-- Claim C6: Diffing a summary map against itself yields the empty map. -/
theorem getNewErrors_self_empty : ∀ (S : ErrorSummaryMap), getNewErrors S S = [] := by
  intro S
  unfold getNewErrors
  suffices H : ∀ (l acc : ErrorSummaryMap), (∀ p ∈ l, p ∈ S) →
      l.foldl (getNewErrorsStep S S) acc = acc by
    exact H S [] (fun p hp => hp)
  intro l
  induction l with
  | nil => intro acc _; rfl
  | cons p l ih =>
    intro acc hmem
    rw [List.foldl_cons, getNewErrorsStep_self S acc p (hmem p (by simp))]
    exact ih acc (fun q hq => hmem q (by simp [hq]))

/-- The claim's case analysis for one identity of the delta: absent from the
new map contributes nothing; new-only identities keep their full summary;
identities in both with a grown count contribute the new summary with the
incremental count; all others contribute nothing. -/
def getNewErrorsSpec (oldErrors newErrors : ErrorSummaryMap) (k : String) : Option ErrorSummary :=
  match jsMapGet newErrors k with
  | none => none
  | some e =>
    match jsMapGet oldErrors k with
    | none => some e
    | some o => if o.count < e.count then some { e with count := e.count - o.count } else none

/-- How one step of the delta loop changes lookups: the processed entry's key
is driven to its specified delta value, every other key is untouched. -/
theorem getNewErrorsStep_get (oldE newE acc : ErrorSummaryMap) (p : String × ErrorSummary)
    (hgetp : jsMapGet newE p.1 = some p.2) (hacc : jsMapGet acc p.1 = none) :
    (jsMapGet (getNewErrorsStep oldE newE acc p) p.1 = getNewErrorsSpec oldE newE p.1) ∧
    (∀ k, k ≠ p.1 → jsMapGet (getNewErrorsStep oldE newE acc p) k = jsMapGet acc k) := by
  unfold getNewErrorsStep getNewErrorsSpec
  by_cases h1 : jsMapHas oldE p.1
  · have h1s := h1
    rw [jsMapHas_eq_isSome] at h1s
    obtain ⟨o, ho⟩ := Option.isSome_iff_exists.mp h1s
    simp only [h1, Bool.not_true, Bool.false_eq_true, if_false, ho, hgetp,
      Option.map_some', Option.getD_some]
    constructor
    · by_cases hlt : o.count < p.2.count
      · rw [if_pos hlt, if_pos hlt, jsMapGet_jsMapSet, if_pos rfl]
      · rw [if_neg hlt, if_neg hlt, hacc]
    · intro k hk
      by_cases hlt : o.count < p.2.count
      · rw [if_pos hlt, jsMapGet_jsMapSet, if_neg hk]
      · rw [if_neg hlt]
  · have h1n : jsMapGet oldE p.1 = none :=
      jsMapGet_eq_none_of_not_mem _ _
        ((jsMapHas_false_iff oldE p.1).mp (Bool.eq_false_iff.mpr h1))
    simp only [h1, Bool.not_false, if_true, hgetp, h1n]
    constructor
    · rw [jsMapGet_jsMapSet, if_pos rfl]
    · intro k hk
      rw [jsMapGet_jsMapSet, if_neg hk]

theorem getNewErrors_fold (oldE newE : ErrorSummaryMap) :
    ∀ (l acc : ErrorSummaryMap),
      (l.map Prod.fst).Nodup →
      (∀ p ∈ l, jsMapGet newE p.1 = some p.2) →
      (∀ p ∈ l, jsMapGet acc p.1 = none) →
      ∀ k, jsMapGet (l.foldl (getNewErrorsStep oldE newE) acc) k =
        if jsMapHas l k then getNewErrorsSpec oldE newE k else jsMapGet acc k := by
  intro l
  induction l with
  | nil =>
    intro acc _ _ _ k
    simp [jsMapHas]
  | cons p l ih =>
    intro acc hnd hnew hacc k
    simp only [List.map_cons, List.nodup_cons] at hnd
    rw [List.foldl_cons, jsMapHas_cons]
    have hstep := getNewErrorsStep_get oldE newE acc p (hnew p (by simp)) (hacc p (by simp))
    have ihall := ih (getNewErrorsStep oldE newE acc p) hnd.2
      (fun q hq => hnew q (by simp [hq]))
      (fun q hq => by
        rw [hstep.2 q.1 (fun e => hnd.1 (e ▸ List.mem_map.mpr ⟨q, hq, rfl⟩))]
        exact hacc q (by simp [hq]))
    rw [ihall k]
    by_cases hk : p.1 = k
    · subst hk
      have hl : jsMapHas l p.1 = false :=
        (jsMapHas_false_iff l p.1).mpr hnd.1
      simp [hl, hstep.1]
    · have hkk : ¬ k = p.1 := fun e => hk e.symm
      by_cases hl : jsMapHas l k <;> simp [hl, hk, hstep.2 k hkk]

/-- Claim C2: `getNewErrors` contains exactly: new-only identities with their
full summary, identities present in both maps with `oldCount < newCount` as
the new summary with the incremental count `newCount - oldCount`, and nothing
else (identities with `oldCount ≥ newCount` and identities only in the old map
never appear). -/
theorem getNewErrors_characterization :
    ∀ (oldErrors newErrors : ErrorSummaryMap),
      (newErrors.map Prod.fst).Nodup →
      ∀ k, jsMapGet (getNewErrors oldErrors newErrors) k =
        getNewErrorsSpec oldErrors newErrors k := by
  intro oldE newE hnd k
  unfold getNewErrors
  rw [getNewErrors_fold oldE newE newE [] hnd
    (fun p hp => jsMapGet_eq_of_mem_nodup newE p.1 p.2 hnd hp)
    (fun p _ => rfl) k]
  by_cases h : jsMapHas newE k
  · rw [if_pos h]
  · rw [if_neg h]
    have : jsMapGet newE k = none := by
      have hs := jsMapHas_eq_isSome newE k
      rw [Bool.eq_false_iff.mpr h] at hs
      exact Option.not_isSome_iff_eq_none.mp (by rw [← hs]; simp)
    unfold getNewErrorsSpec
    rw [this, jsMapGet_nil]

/-- Claim C2, witness: A concrete delta: an identity present in both maps with a
grown count yields the incremental summary. -/
theorem getNewErrors_characterization_witness :
    jsMapGet
      (getNewErrors [("a", ⟨"TS1", 1, "f.ts", 4, some "m"⟩)]
        [("a", ⟨"TS1", 5, "f.ts", 9, some "m"⟩), ("b", ⟨"TS2", 2, "g.ts", 1, some "n"⟩)]) "a" =
      getNewErrorsSpec [("a", ⟨"TS1", 1, "f.ts", 4, some "m"⟩)]
        [("a", ⟨"TS1", 5, "f.ts", 9, some "m"⟩), ("b", ⟨"TS2", 2, "g.ts", 1, some "n"⟩)] "a" :=
  getNewErrors_characterization _ _ (by decide) "a"

/-! ## The summary aggregator -/

/-- The identity key under which an occurrence is aggregated. -/
def summaryKeyOf (opts : ErrorOptions) (e : SpecificError) : String :=
  getErrorSummaryHash (mkSummary opts e) opts

theorem jsMapSet_single (k : String) (s v : α) :
    jsMapSet [(k, s)] k v = [(k, v)] := by
  simp [jsMapSet]

/-- The summary-building loop relates to the line loop: when every line
matches, the summary map of the parse is the fold of `addErrorToSummary` over
the matched occurrences in order. -/
theorem foldl_parseStep_summary (opts : ErrorOptions) :
    ∀ (lines : List String) (es : List SpecificError) (st : ParsingResult),
      lines.map matchErrorLine = es.map some →
      (lines.foldl (parseStep opts) st).errorSummaryMap =
        es.foldl (addErrorToSummary opts) st.errorSummaryMap := by
  intro lines
  induction lines with
  | nil =>
    intro es st h
    cases es with
    | nil => rfl
    | cons e es => simp at h
  | cons l ls ih =>
    intro es st h
    cases es with
    | nil => simp at h
    | cons e es' =>
      simp only [List.map_cons, List.cons.injEq] at h
      rw [List.foldl_cons, List.foldl_cons]
      have hstep : (parseStep opts st l).errorSummaryMap =
          addErrorToSummary opts st.errorSummaryMap e := by
        unfold parseStep
        rw [h.1]
      rw [ih es' (parseStep opts st l) h.2, hstep]

/-- Folding further occurrences of one identity over a singleton summary map
increments the count and changes nothing else (in particular the stored
`line` keeps its first-inserted value). -/
theorem addErrorToSummary_fold_single (opts : ErrorOptions) (e₀ : SpecificError) :
    ∀ (rest : List SpecificError) (s : ErrorSummary),
      (∀ e ∈ rest, e.file = e₀.file ∧ e.code = e₀.code ∧ e.message = e₀.message) →
      rest.foldl (addErrorToSummary opts) [(summaryKeyOf opts e₀, s)] =
        [(summaryKeyOf opts e₀, { s with count := s.count + rest.length })] := by
  intro rest
  induction rest with
  | nil =>
    intro s _
    cases s
    simp
  | cons e rest ih =>
    intro s hid
    rw [List.foldl_cons]
    have hkey : getErrorSummaryHash (mkSummary opts e) opts = summaryKeyOf opts e₀ := by
      unfold summaryKeyOf
      apply getErrorSummaryHash_congr
      · simp [mkSummary, (hid e (by simp)).2.1]
      · simp [mkSummary, (hid e (by simp)).1]
      · intro him
        simp [mkSummary, him, (hid e (by simp)).2.2]
    have hadd : addErrorToSummary opts [(summaryKeyOf opts e₀, s)] e =
        [(summaryKeyOf opts e₀, { s with count := s.count + 1 })] := by
      unfold addErrorToSummary
      simp only [hkey,
        show jsMapGet [(summaryKeyOf opts e₀, s)] (summaryKeyOf opts e₀) = some s by
          simp [jsMapGet_cons]]
      exact jsMapSet_single _ _ _
    rw [hadd, ih { s with count := s.count + 1 } (fun q hq => hid q (by simp [hq]))]
    cases s
    simp
    omega

/-- Claim C3: Parsing a blob of `n ≥ 1` matching diagnostic lines that all share
the same `(file, code, message)` identity (at pairwise distinct line/column
positions) yields a summary map with exactly one entry — keyed by that
identity's hash — whose count is `n`. -/
theorem parse_aggregates_repeated_identity :
    ∀ (opts : ErrorOptions) (errorLog : String) (e₀ : SpecificError)
      (rest : List SpecificError),
      ((jsSplitNewlines errorLog.toList).map String.mk).map matchErrorLine =
        (e₀ :: rest).map some →
      (∀ e ∈ e₀ :: rest, e.file = e₀.file ∧ e.code = e₀.code ∧ e.message = e₀.message) →
      List.Pairwise (fun a b => ¬(a.line = b.line ∧ a.column = b.column)) (e₀ :: rest) →
      (parseTypeScriptErrors errorLog opts).errorSummaryMap =
        [(summaryKeyOf opts e₀, { mkSummary opts e₀ with count := rest.length + 1 })] := by
  intro opts errorLog e₀ rest hmatch hid _hpw
  unfold parseTypeScriptErrors parseLines
  rw [foldl_parseStep_summary opts _ (e₀ :: rest) ⟨[], []⟩ hmatch]
  rw [List.foldl_cons]
  have h0 : addErrorToSummary opts ([] : ErrorSummaryMap) e₀ =
      [(summaryKeyOf opts e₀, mkSummary opts e₀)] := rfl
  rw [h0, addErrorToSummary_fold_single opts e₀ rest (mkSummary opts e₀)
    (fun q hq => hid q (by simp [hq]))]
  have hcnt : (mkSummary opts e₀).count + rest.length = rest.length + 1 := by
    simp [mkSummary]
    omega
  rw [hcnt]

/-- Claim C3, witness: Two occurrences of one identity at distinct positions
aggregate to a single summary with count 2. -/
theorem parse_aggregates_repeated_identity_witness :
    (parseTypeScriptErrors "a.ts(1,2): error TS1: m\na.ts(3,4): error TS1: m" ⟨false⟩).errorSummaryMap =
      [(summaryKeyOf ⟨false⟩ ⟨"TS1", 2, "a.ts", 1, "m"⟩,
        { mkSummary ⟨false⟩ ⟨"TS1", 2, "a.ts", 1, "m"⟩ with count := 2 })] :=
  parse_aggregates_repeated_identity ⟨false⟩
    "a.ts(1,2): error TS1: m\na.ts(3,4): error TS1: m"
    ⟨"TS1", 2, "a.ts", 1, "m"⟩ [⟨"TS1", 4, "a.ts", 3, "m"⟩]
    (by decide) (by decide) (by decide)

/-- Claim C4, counterexample: A blob with two occurrences of the same identity at
lines 1 and 2 (line 2 processed last) stores representative line 1 — the
first-processed occurrence's line, not the most recently processed one. -/
theorem representative_line_not_last_write :
    ((parseTypeScriptErrors "a.ts(1,1): error TS1: m\na.ts(2,1): error TS1: m"
        ⟨false⟩).errorSummaryMap.map (fun p => p.2.line)) = [1] ∧ (1 : Nat) ≠ 2 :=
  ⟨by decide, by decide⟩

/-- The first occurrence of each identity key in the parse order, and the
total number of its occurrences: the shape of one aggregated map entry. -/
theorem addFold_get (opts : ErrorOptions) :
    ∀ (es : List SpecificError) (k : String),
      jsMapGet (es.foldl (addErrorToSummary opts) []) k =
        match es.find? (fun e => summaryKeyOf opts e = k) with
        | some e₀ =>
          some { mkSummary opts e₀ with
                  count := (es.filter (fun e => summaryKeyOf opts e = k)).length }
        | none => none := by
  intro es
  induction es using List.reverseRecOn with
  | nil => intro k; rfl
  | append_singleton es e ih =>
    intro k
    rw [List.foldl_append, List.foldl_cons, List.foldl_nil]
    have hkeyeq : ∀ (m : ErrorSummaryMap),
        addErrorToSummary opts m e =
          match jsMapGet m (summaryKeyOf opts e) with
          | some existing =>
            jsMapSet m (summaryKeyOf opts e) { existing with count := existing.count + 1 }
          | none => jsMapSet m (summaryKeyOf opts e) (mkSummary opts e) := by
      intro m
      rfl
    rw [hkeyeq]
    by_cases hk : summaryKeyOf opts e = k
    · subst hk
      rw [List.find?_append, List.filter_append]
      cases hfind : List.find? (fun e' => summaryKeyOf opts e' = summaryKeyOf opts e) es with
      | some e₀ =>
        have hsome := ih (summaryKeyOf opts e)
        rw [hfind] at hsome
        rw [hsome]
        rw [jsMapGet_jsMapSet, if_pos rfl]
        have hfe : List.find? (fun e' => summaryKeyOf opts e' = summaryKeyOf opts e) [e] = some e := by
          simp [List.find?]
        simp only [hfind, Option.some_orElse]
        have : List.filter (fun e' => summaryKeyOf opts e' = summaryKeyOf opts e) [e] = [e] := by
          simp [List.filter]
        rw [this, List.length_append]
        simp
      | none =>
        have hnone := ih (summaryKeyOf opts e)
        rw [hfind] at hnone
        rw [hnone]
        rw [jsMapGet_jsMapSet, if_pos rfl]
        have hfilter : List.filter (fun e' => summaryKeyOf opts e' = summaryKeyOf opts e) es = [] := by
          rw [List.filter_eq_nil_iff]
          intro a ha
          have := List.find?_eq_none.mp hfind a ha
          simpa using this
        have hfe : List.filter (fun e' => summaryKeyOf opts e' = summaryKeyOf opts e) [e] = [e] := by
          simp [List.filter]
        simp only [hfind, Option.none_orElse]
        have : List.find? (fun e' => summaryKeyOf opts e' = summaryKeyOf opts e) [e] = some e := by
          simp [List.find?]
        rw [this, hfilter, hfe]
        simp [mkSummary]
    · -- the appended occurrence has a different identity key: lookups at `k`
      -- are unchanged
      rw [List.find?_append, List.filter_append]
      have hfe : List.find? (fun e' => summaryKeyOf opts e' = k) [e] = none := by
        simp [List.find?, hk]
      have hfilter : List.filter (fun e' => summaryKeyOf opts e' = k) [e] = [] := by
        simp [List.filter, hk]
      have hset : ∀ (v : ErrorSummary),
          jsMapGet (jsMapSet (es.foldl (addErrorToSummary opts) []) (summaryKeyOf opts e) v) k =
            jsMapGet (es.foldl (addErrorToSummary opts) []) k := by
        intro v
        rw [jsMapGet_jsMapSet, if_neg (fun h => hk h.symm)]
      cases hget : jsMapGet (es.foldl (addErrorToSummary opts) []) (summaryKeyOf opts e) with
      | some existing => rw [hset, ih k, hfe, hfilter]; simp
      | none => rw [hset, ih k, hfe, hfilter]; simp

/-- Claim C4, amended: For every parse, the representative fields stored in an
identity's `ErrorSummary` — in particular its `line` — come from the *first*
processed occurrence of that identity (first write wins; later occurrences
only increment the count), and the count is the total number of its
occurrences. -/
theorem representative_line_first_write_wins :
    ∀ (opts : ErrorOptions) (errorLog : String) (es : List SpecificError)
      (k : String) (e₀ : SpecificError),
      ((jsSplitNewlines errorLog.toList).map String.mk).map matchErrorLine = es.map some →
      es.find? (fun e => summaryKeyOf opts e = k) = some e₀ →
      jsMapGet ((parseTypeScriptErrors errorLog opts).errorSummaryMap) k =
        some { mkSummary opts e₀ with
                count := (es.filter (fun e => summaryKeyOf opts e = k)).length } := by
  intro opts errorLog es k e₀ hmatch hfind
  unfold parseTypeScriptErrors parseLines
  rw [foldl_parseStep_summary opts _ es ⟨[], []⟩ hmatch]
  rw [addFold_get opts es k, hfind]

/-- Claim C4, amended, witness: Concretely: occurrences at lines 1 and 2 of one
identity store representative line 1 with count 2. -/
theorem representative_line_first_write_wins_witness :
    jsMapGet ((parseTypeScriptErrors "a.ts(1,1): error TS1: m\na.ts(2,1): error TS1: m"
        ⟨false⟩).errorSummaryMap) (summaryKeyOf ⟨false⟩ ⟨"TS1", 1, "a.ts", 1, "m"⟩) =
      some { mkSummary ⟨false⟩ ⟨"TS1", 1, "a.ts", 1, "m"⟩ with count := 2 } := by
  have h := representative_line_first_write_wins ⟨false⟩
    "a.ts(1,1): error TS1: m\na.ts(2,1): error TS1: m"
    [⟨"TS1", 1, "a.ts", 1, "m"⟩, ⟨"TS1", 1, "a.ts", 2, "m"⟩]
    (summaryKeyOf ⟨false⟩ ⟨"TS1", 1, "a.ts", 1, "m"⟩)
    ⟨"TS1", 1, "a.ts", 1, "m"⟩ (by decide) (by decide)
  rw [h]
  decide

/-! ## The baseline document store: round trip -/

theorem jsGet_obj_cons (k : String) (v : Json) (fields : List (String × Json)) (k' : String) :
    jsGet (Json.obj ((k, v) :: fields)) k' =
      if k = k' then some v else jsGet (Json.obj fields) k' := by
  by_cases h : k = k' <;> simp [jsGet, List.find?, h]

/-- Decoding inverts encoding on every summary, message presence included. -/
theorem decodeErrorSummary_encodeErrorSummary (s : ErrorSummary) :
    decodeErrorSummary (encodeErrorSummary s) = s := by
  obtain ⟨code, count, file, line, message⟩ := s
  cases message <;> rfl

theorem map_encode_keys (m : ErrorSummaryMap) :
    ((m.map (fun p => (p.1, encodeErrorSummary p.2))).map Prod.fst) = m.map Prod.fst := by
  rw [List.map_map]
  rfl

/-- What the store reads back from a freshly written document: exactly the
written entries. -/
theorem getErrorSummaryMap_write (m : ErrorSummaryMap) (errorOptions : ErrorOptions)
    (hnd : (m.map Prod.fst).Nodup) :
    getErrorSummaryMap (writeTypeScriptErrorsToFile m errorOptions) =
      .ok (m.map (fun p => (p.1, encodeErrorSummary p.2))) := by
  have hk : ((m.map (fun p => (p.1, encodeErrorSummary p.2))).map Prod.fst).Nodup := by
    rw [map_encode_keys]; exact hnd
  have hfe : jsFromEntries (m.map (fun p => (p.1, encodeErrorSummary p.2))) =
      m.map (fun p => (p.1, encodeErrorSummary p.2)) := jsFromEntries_eq_self _ hk
  have h1 : jsGet (writeTypeScriptErrorsToFile m errorOptions) "errors" =
      some (Json.obj (m.map (fun p => (p.1, encodeErrorSummary p.2)))) := by
    unfold writeTypeScriptErrorsToFile writeBaselineJson
    rw [jsGet_obj_cons, if_neg (by decide), jsGet_obj_cons, if_pos rfl, hfe]
  unfold getErrorSummaryMap
  rw [h1]
  rw [show jsEntries (some (Json.obj (m.map (fun p => (p.1, encodeErrorSummary p.2))))) =
    Except.ok (m.map (fun p => (p.1, encodeErrorSummary p.2))) from rfl]
  show Except.ok (jsFromEntries (m.map (fun p => (p.1, encodeErrorSummary p.2)))) = _
  rw [hfe]

/-- Claim C5: Round trip through the store: writing a summary map and reading
the file back through `readBaselineErrorsFile` and `getErrorSummaryMap`
reproduces the original map exactly — same identity keys in order, same
counts, and the optional `message` present exactly when it was present in the
input. -/
theorem baseline_write_read_roundtrip :
    ∀ (map : ErrorSummaryMap) (errorOptions : ErrorOptions),
      (map.map Prod.fst).Nodup →
      ∃ stored,
        getErrorSummaryMap (readBaselineErrorsFile (writeTypeScriptErrorsToFile map errorOptions)) =
          .ok stored ∧
        stored.map (fun p => (p.1, decodeErrorSummary p.2)) = map := by
  intro m errorOptions hnd
  refine ⟨m.map (fun p => (p.1, encodeErrorSummary p.2)), ?_, ?_⟩
  · exact getErrorSummaryMap_write m errorOptions hnd
  · rw [List.map_map]
    have hcomp : ((fun p => ((p : String × Json).1, decodeErrorSummary p.2)) ∘
        (fun p => ((p : String × ErrorSummary).1, encodeErrorSummary p.2))) =
        (fun p => (p.1, decodeErrorSummary (encodeErrorSummary p.2))) := rfl
    rw [hcomp]
    have hid : m.map (fun p => (p.1, decodeErrorSummary (encodeErrorSummary p.2))) = m.map id := by
      apply List.map_congr_left
      intro p _
      simp [decodeErrorSummary_encodeErrorSummary]
    rw [hid, List.map_id]

/-- Claim C5, witness: A concrete two-entry map (one summary with a message, one
without) survives the write/read round trip. -/
theorem baseline_write_read_roundtrip_witness :
    ∃ stored,
      getErrorSummaryMap (readBaselineErrorsFile (writeTypeScriptErrorsToFile
        [("h1", ⟨"TS1", 2, "a.ts", 3, some "m"⟩), ("h2", ⟨"TS2", 1, "b.ts", 9, none⟩)]
        ⟨false⟩)) = .ok stored ∧
      stored.map (fun p => (p.1, decodeErrorSummary p.2)) =
        [("h1", ⟨"TS1", 2, "a.ts", 3, some "m"⟩), ("h2", ⟨"TS2", 1, "b.ts", 9, none⟩)] :=
  baseline_write_read_roundtrip
    [("h1", ⟨"TS1", 2, "a.ts", 3, some "m"⟩), ("h2", ⟨"TS2", 1, "b.ts", 9, none⟩)]
    ⟨false⟩ (by decide)

/-! ## Version gating

The spec's `BaselineDocument` domain is the tagged union of the two document
shapes the store can encounter (`BaselineFile | OldBaselineFile` in the
source): the current shape with a `meta` object, and the legacy pre-versioning
shape — a flat identity→record map whose values are `ErrorSummary` or
`SpecificError` objects (so even a legacy entry stored under the key `"meta"`
is an object without a `baselineFileVersion` field). -/

/-- The `meta` record of a `BaselineFile`. -/
structure BaselineMeta where
  baselineFileVersion : Nat
  ignoreMessages : Bool

/-- One value of a legacy (`OldBaselineFile`) document. -/
inductive OldBaselineEntry where
  | summary (s : ErrorSummary)
  | specific (e : SpecificError)

/-- The JSON object for a `SpecificError` (field order of the source's object
literal). -/
def encodeSpecificError (e : SpecificError) : Json :=
  Json.obj [("file", .str e.file), ("code", .str e.code), ("message", .str e.message),
            ("line", .num e.line), ("column", .num e.column)]

def encodeOldBaselineEntry : OldBaselineEntry → Json
  | .summary s => encodeErrorSummary s
  | .specific e => encodeSpecificError e

/-- A baseline document: either the current `meta`/`errors` shape or a legacy
flat map. -/
inductive BaselineDocModel where
  | current (meta : BaselineMeta) (errors : List (String × ErrorSummary))
  | legacy (entries : List (String × OldBaselineEntry))

def encodeBaselineDoc : BaselineDocModel → Json
  | .current meta errors =>
    Json.obj
      [("meta", Json.obj [("baselineFileVersion", .num meta.baselineFileVersion),
                          ("ignoreMessages", .bool meta.ignoreMessages)]),
       ("errors", Json.obj (jsFromEntries (errors.map (fun p => (p.1, encodeErrorSummary p.2)))))]
  | .legacy entries =>
    Json.obj (jsFromEntries (entries.map (fun p => (p.1, encodeOldBaselineEntry p.2))))

theorem mem_snd_jsMapSet (m : List (String × α)) (k : String) (v a : α) :
    a ∈ (jsMapSet m k v).map Prod.snd → a ∈ m.map Prod.snd ∨ a = v := by
  intro h
  obtain ⟨q, hq, rfl⟩ := List.mem_map.mp h
  unfold jsMapSet at hq
  split at hq
  · obtain ⟨p, hp, hfp⟩ := List.mem_map.mp hq
    by_cases hpk : p.1 = k
    · rw [if_pos hpk] at hfp
      right
      rw [← hfp]
    · rw [if_neg hpk] at hfp
      left
      exact List.mem_map.mpr ⟨p, hp, by rw [hfp]⟩
  · rcases List.mem_append.mp hq with h' | h'
    · exact Or.inl (List.mem_map.mpr ⟨q, h', rfl⟩)
    · right
      simp only [List.mem_singleton] at h'
      rw [h']

theorem mem_snd_jsFromEntries (l : List (String × α)) (a : α) :
    a ∈ (jsFromEntries l).map Prod.snd → a ∈ l.map Prod.snd := by
  unfold jsFromEntries
  suffices H : ∀ (acc : List (String × α)),
      a ∈ (l.foldl (fun acc p => jsMapSet acc p.1 p.2) acc).map Prod.snd →
      a ∈ acc.map Prod.snd ∨ a ∈ l.map Prod.snd by
    intro h
    rcases H [] h with h' | h'
    · simp at h'
    · exact h'
  induction l with
  | nil =>
    intro acc h
    exact Or.inl h
  | cons p l ih =>
    intro acc h
    rw [List.foldl_cons] at h
    rcases ih (jsMapSet acc p.1 p.2) h with h' | h'
    · rcases mem_snd_jsMapSet acc p.1 p.2 a h' with h'' | h''
      · exact Or.inl h''
      · exact Or.inr (by simp [h''])
    · exact Or.inr (by simp [h'])

/-- Every encoded legacy value is an object without a `baselineFileVersion`
field. -/
theorem encodeOldBaselineEntry_no_version (e : OldBaselineEntry) :
    ∃ fields, encodeOldBaselineEntry e = .obj fields ∧
      fields.any (fun p => p.1 = "baselineFileVersion") = false := by
  cases e with
  | summary s =>
    cases hm : s.message with
    | none =>
      refine ⟨[("file", .str s.file), ("code", .str s.code), ("line", .num s.line),
        ("count", .num s.count)], ?_, rfl⟩
      simp [encodeOldBaselineEntry, encodeErrorSummary, hm]
    | some msg =>
      refine ⟨[("file", .str s.file), ("code", .str s.code), ("line", .num s.line),
        ("count", .num s.count), ("message", .str msg)], ?_, rfl⟩
      simp [encodeOldBaselineEntry, encodeErrorSummary, hm]
  | specific e => exact ⟨_, rfl, rfl⟩

theorem getBaselineFileVersion_current (meta : BaselineMeta)
    (errors : List (String × ErrorSummary)) :
    getBaselineFileVersion (encodeBaselineDoc (.current meta errors)) =
      .ok (.num meta.baselineFileVersion) := rfl

theorem getBaselineFileVersion_legacy (entries : List (String × OldBaselineEntry)) :
    getBaselineFileVersion (encodeBaselineDoc (.legacy entries)) = .ok (.num 0) := by
  unfold encodeBaselineDoc getBaselineFileVersion
  cases hget : jsGet
      (Json.obj (jsFromEntries (entries.map (fun p => (p.1, encodeOldBaselineEntry p.2)))))
      "meta" with
  | none => rfl
  | some v =>
    have hv : v ∈ (entries.map (fun p => (p.1, encodeOldBaselineEntry p.2))).map Prod.snd := by
      unfold jsGet at hget
      obtain ⟨q, hfind, hq2⟩ := Option.map_eq_some'.mp hget
      apply mem_snd_jsFromEntries
      exact List.mem_map.mpr ⟨q, List.mem_of_find?_eq_some hfind, hq2⟩
    have hv' : ∃ e0, v = encodeOldBaselineEntry e0 := by
      obtain ⟨p, hp, hp2⟩ := List.mem_map.mp hv
      obtain ⟨q, hq, hq2⟩ := List.mem_map.mp hp
      refine ⟨q.2, ?_⟩
      rw [← hp2, ← hq2]
    obtain ⟨e0, rfl⟩ := hv'
    obtain ⟨fields, hf, hany⟩ := encodeOldBaselineEntry_no_version e0
    rw [hf]
    simp [jsTypeofIsObject, hany]

/-- The version the version reader assigns to each document shape. -/
def baselineDocVersion : BaselineDocModel → Nat
  | .current meta _ => meta.baselineFileVersion
  | .legacy _ => 0

/-- Claim C7: `getBaselineFileVersion` returns `meta.baselineFileVersion` when
the `meta` object with that field is present, and `0` for a legacy flat-map
document without it; `isBaselineVersionCurrent` holds exactly when that
version equals `CURRENT_BASELINE_VERSION`; hence every document without
`meta` has version `0 < CURRENT_BASELINE_VERSION = 1` and is rejected as
stale. -/
theorem baseline_version_gating :
    (∀ (meta : BaselineMeta) (errors : List (String × ErrorSummary)),
      getBaselineFileVersion (encodeBaselineDoc (.current meta errors)) =
        .ok (.num meta.baselineFileVersion) ∧
      isBaselineVersionCurrent (encodeBaselineDoc (.current meta errors)) =
        .ok (decide (meta.baselineFileVersion = CURRENT_BASELINE_VERSION))) ∧
    (∀ (entries : List (String × OldBaselineEntry)),
      getBaselineFileVersion (encodeBaselineDoc (.legacy entries)) = .ok (.num 0) ∧
      isBaselineVersionCurrent (encodeBaselineDoc (.legacy entries)) = .ok false ∧
      0 < CURRENT_BASELINE_VERSION) := by
  constructor
  · intro meta errors
    refine ⟨getBaselineFileVersion_current meta errors, ?_⟩
    unfold isBaselineVersionCurrent
    rw [getBaselineFileVersion_current meta errors]
    rfl
  · intro entries
    refine ⟨getBaselineFileVersion_legacy entries, ?_, by decide⟩
    unfold isBaselineVersionCurrent
    rw [getBaselineFileVersion_legacy entries]
    rfl

/-! ## Adding a hash to the baseline -/

theorem jsMapGet_map_value (m : List (String × α)) (f : α → β) (k : String) :
    jsMapGet (m.map (fun p => (p.1, f p.2))) k = (jsMapGet m k).map f := by
  induction m with
  | nil => rfl
  | cons p m ih =>
    rw [List.map_cons, jsMapGet_cons, jsMapGet_cons]
    by_cases hp : p.1 = k <;> simp [hp, ih]

/-- Reading the `errors` object back out of a freshly built document. -/
theorem getErrorSummaryMap_writeBaselineJson (entries : List (String × Json)) (im : Bool)
    (hnd : (entries.map Prod.fst).Nodup) :
    getErrorSummaryMap (writeBaselineJson entries im) = .ok entries := by
  have hfe : jsFromEntries entries = entries := jsFromEntries_eq_self _ hnd
  have h1 : jsGet (writeBaselineJson entries im) "errors" = some (Json.obj entries) := by
    unfold writeBaselineJson
    rw [jsGet_obj_cons, if_neg (by decide), jsGet_obj_cons, if_pos rfl, hfe]
  unfold getErrorSummaryMap
  rw [h1]
  rw [show jsEntries (some (Json.obj entries)) = Except.ok entries from rfl]
  show Except.ok (jsFromEntries entries) = _
  rw [hfe]

/-- Claim C10, counterexample: Adding a hash that is *already* a key of the
baseline does not preserve the existing entry and does not add an entry: the
pre-existing summary under `"h"` is overwritten by the placeholder, and the
map still has a single entry. -/
theorem addHashToBaseline_overwrites_existing_entry :
    addHashToBaseline "h"
        (writeTypeScriptErrorsToFile [("h", ⟨"TS1", 2, "a.ts", 3, some "m"⟩)] ⟨false⟩) =
      .ok (writeBaselineJson [("h", encodeErrorSummary placeholderSummary)] false) ∧
    decodeErrorSummary (encodeErrorSummary placeholderSummary) ≠
      (⟨"TS1", 2, "a.ts", 3, some "m"⟩ : ErrorSummary) :=
  ⟨rfl, by decide⟩

/-- Claim C10, amended: `addHashToBaseline` is atomic on version error: on any
document whose version check does not come out current it throws before any
write.  On a freshly written current-version baseline it binds the given hash
to the placeholder summary `{code: '0000', file: '0000', message: '0000',
line: 0, count: 1}`, preserving every entry under a *different* key
(overwriting any entry already stored under that hash); when the hash was not
yet a key this adds exactly one entry at the end. -/
theorem addHashToBaseline_amended :
    (∀ (fileContents : Json) (hash : String),
      isBaselineVersionCurrent fileContents ≠ .ok true →
      ∃ msg, addHashToBaseline hash fileContents = .error msg) ∧
    (∀ (im : Bool) (map : ErrorSummaryMap) (hash : String),
      (map.map Prod.fst).Nodup →
      ∃ newDoc entries,
        addHashToBaseline hash (writeTypeScriptErrorsToFile map ⟨im⟩) = .ok newDoc ∧
        getErrorSummaryMap newDoc = .ok entries ∧
        jsMapGet entries hash = some (encodeErrorSummary placeholderSummary) ∧
        (∀ k, k ≠ hash → jsMapGet entries k = (jsMapGet map k).map encodeErrorSummary) ∧
        (hash ∉ map.map Prod.fst →
          entries = map.map (fun p => (p.1, encodeErrorSummary p.2)) ++
            [(hash, encodeErrorSummary placeholderSummary)])) := by
  constructor
  · intro d hash hne
    unfold addHashToBaseline readBaselineErrorsFile
    cases hver : isBaselineVersionCurrent d with
    | error e => exact ⟨e, rfl⟩
    | ok b =>
      cases b with
      | true => exact absurd hver hne
      | false => exact ⟨baselineNotCurrentMessage, rfl⟩
  · intro im m hash hnd
    have hndJ : ((m.map (fun p => (p.1, encodeErrorSummary p.2))).map Prod.fst).Nodup := by
      rw [map_encode_keys]; exact hnd
    have hfe : jsFromEntries (m.map (fun p => (p.1, encodeErrorSummary p.2))) =
        m.map (fun p => (p.1, encodeErrorSummary p.2)) := jsFromEntries_eq_self _ hndJ
    have hcur : isBaselineVersionCurrent (writeTypeScriptErrorsToFile m ⟨im⟩) = .ok true := rfl
    have hgsm := getErrorSummaryMap_write m ⟨im⟩ hnd
    have him : (jsGet (writeTypeScriptErrorsToFile m ⟨im⟩) "meta").bind
        (fun mo => jsGet mo "ignoreMessages") = some (.bool im) := rfl
    refine ⟨writeBaselineJson
        (jsMapSet (m.map (fun p => (p.1, encodeErrorSummary p.2))) hash
          (encodeErrorSummary placeholderSummary)) im,
      jsMapSet (m.map (fun p => (p.1, encodeErrorSummary p.2))) hash
        (encodeErrorSummary placeholderSummary), ?_, ?_, ?_, ?_, ?_⟩
    · unfold addHashToBaseline readBaselineErrorsFile
      rw [hcur]
      show (match getErrorSummaryMap (writeTypeScriptErrorsToFile m ⟨im⟩) with
        | .error e => (.error e : Except String Json)
        | .ok oldErrors =>
          .ok (writeBaselineJson
            (jsMapSet (jsFromEntries oldErrors) hash (encodeErrorSummary placeholderSummary))
            (match (jsGet (writeTypeScriptErrorsToFile m ⟨im⟩) "meta").bind
                (fun mo => jsGet mo "ignoreMessages") with
              | some (.bool b) => b
              | _ => false))) = _
      rw [hgsm]
      show Except.ok (writeBaselineJson
        (jsMapSet (jsFromEntries (m.map (fun p => (p.1, encodeErrorSummary p.2)))) hash
          (encodeErrorSummary placeholderSummary))
        (match (jsGet (writeTypeScriptErrorsToFile m ⟨im⟩) "meta").bind
            (fun mo => jsGet mo "ignoreMessages") with
          | some (.bool b) => b
          | _ => false)) = _
      rw [hfe, him]
    · exact getErrorSummaryMap_writeBaselineJson _ im
        (jsMapSet_keys_nodup _ hash _ hndJ)
    · rw [jsMapGet_jsMapSet, if_pos rfl]
    · intro k hk
      rw [jsMapGet_jsMapSet, if_neg hk, jsMapGet_map_value]
    · intro hnotin
      have : jsMapHas (m.map (fun p => (p.1, encodeErrorSummary p.2))) hash = false := by
        rw [jsMapHas_false_iff, map_encode_keys]
        exact hnotin
      rw [jsMapSet_of_not_has _ _ _ this]

/-- Claim C10, amended, witness: The version-mismatch branch throws on a
metaless document, and the happy path stores the placeholder. -/
theorem addHashToBaseline_amended_witness :
    (∃ msg, addHashToBaseline "h" (Json.obj []) = .error msg) ∧
    (∃ newDoc entries,
      addHashToBaseline "h"
          (writeTypeScriptErrorsToFile [("a", ⟨"TS1", 1, "f.ts", 2, some "m"⟩)] ⟨true⟩) =
        .ok newDoc ∧
      getErrorSummaryMap newDoc = .ok entries ∧
      jsMapGet entries "h" = some (encodeErrorSummary placeholderSummary) ∧
      (∀ k, k ≠ "h" → jsMapGet entries k =
        (jsMapGet [("a", ⟨"TS1", 1, "f.ts", 2, some "m"⟩)] k).map encodeErrorSummary) ∧
      ("h" ∉ ([("a", (⟨"TS1", 1, "f.ts", 2, some "m"⟩ : ErrorSummary))].map Prod.fst) →
        entries = [("a", (⟨"TS1", 1, "f.ts", 2, some "m"⟩ : ErrorSummary))].map
            (fun p => (p.1, encodeErrorSummary p.2)) ++
          [("h", encodeErrorSummary placeholderSummary)])) :=
  ⟨addHashToBaseline_amended.1 (Json.obj []) "h"
      (fun h => absurd (Except.ok.inj h) (by decide)),
    addHashToBaseline_amended.2 true [("a", ⟨"TS1", 1, "f.ts", 2, some "m"⟩)] "h" (by decide)⟩

/-! ## The structured (GitLab) report -/

/-- Claim C9: The structured report entry does *not* carry the summary's
identity hash: `formatForGitLab` maps over the map's *values*, and reads the
fingerprint from `error.hash` — a property `ErrorSummary` does not have — so
the `||` fallback fires and every entry's fingerprint is the constant
`'unknown-fingerprint'`, never the identity hash under which the summary is
keyed.  Evaluated here at a one-summary delta keyed by `"abc123"`. -/
theorem formatForGitLab_fingerprint_is_constant :
    formatForGitLab [("abc123", ⟨"TS1", 1, "a.ts", 3, some "m"⟩)] =
      [{ check_name := "typescript-errors", description := "m",
         fingerprint := "unknown-fingerprint",
         location := { lines := { begin_ := 3 }, path := "a.ts" },
         severity := "minor" }] ∧
    "unknown-fingerprint" ≠ "abc123" :=
  ⟨by decide, by decide⟩

/-! ## The parser grammar

The declarative reading of the line pattern
`^(.+)\((\d+),(\d+)\): error (\w+): (.+)$`: a line matches iff it decomposes
as `file ++ '(' ++ digits ++ ',' ++ digits ++ "): error " ++ word ++ ": " ++
message` with the character-class constraints, and the `file` capture is the
*greedy* choice — the longest such prefix. -/

theorem list_all_takeWhile (p : α → Bool) (l : List α) :
    (l.takeWhile p).all p = true := by
  induction l with
  | nil => rfl
  | cons c l ih =>
    rw [List.takeWhile_cons]
    by_cases h : p c <;> simp [h, ih]

theorem takeWhile_append_all (p : α → Bool) (l1 : List α) (a : α) (l2 : List α)
    (h1 : l1.all p = true) (h2 : p a = false) :
    (l1 ++ a :: l2).takeWhile p = l1 ∧ (l1 ++ a :: l2).dropWhile p = a :: l2 := by
  induction l1 with
  | nil => simp [List.takeWhile_cons, List.dropWhile_cons, h2]
  | cons c l1 ih =>
    simp only [List.all_cons, Bool.and_eq_true] at h1
    have := ih h1.2
    simp [List.takeWhile_cons, List.dropWhile_cons, h1.1, this.1, this.2]

theorem ne_nil_of_isEmpty_ne (l : List α) (h : ¬ l.isEmpty = true) : l ≠ [] := by
  intro e
  subst e
  exact h rfl

theorem isEmpty_false_of_ne_nil (l : List α) (h : l ≠ []) : l.isEmpty = false := by
  cases l with
  | nil => exact absurd rfl h
  | cons c l => rfl

/-- The shape of the part of a matching line after the `(` that closes the
file group: `<line>,<column>): error <code>: <message>` with decimal `line`
and `column`, a word-token `code` and a nonempty `message` of `.`-matchable
characters. -/
def TailShape (cs : List Char) (lineNo col : Nat) (code msg : String) : Prop :=
  ∃ ds1 ds2 w m,
    cs = ds1 ++ ',' ::
      (ds2 ++ ')' :: ':' :: ' ' :: 'e' :: 'r' :: 'r' :: 'o' :: 'r' :: ' ' ::
        (w ++ ':' :: ' ' :: m)) ∧
    ds1 ≠ [] ∧ ds1.all isDigitChar = true ∧
    ds2 ≠ [] ∧ ds2.all isDigitChar = true ∧
    w ≠ [] ∧ w.all isWordChar = true ∧
    m ≠ [] ∧ m.all isDot = true ∧
    lineNo = digitsToNat ds1 ∧ col = digitsToNat ds2 ∧
    code = String.mk w ∧ msg = String.mk m

theorem parseTail_sound (cs : List Char) (lineNo col : Nat) (code msg : String)
    (h : parseTail cs = some (lineNo, col, code, msg)) :
    TailShape cs lineNo col code msg := by
  simp only [parseTail] at h
  split at h
  · exact absurd h (by simp)
  · split at h
    · split at h
      · exact absurd h (by simp)
      · split at h
        · split at h
          · exact absurd h (by simp)
          · split at h
            · split at h
              · exact absurd h (by simp)
              · rename_i hne1 r1 r2 heq1 hne2 r3 r4 heq2 hne3 r5 msgl heq3 hcond
                have htup := Option.some.inj h
                have hl : digitsToNat (cs.takeWhile isDigitChar) = lineNo := congrArg Prod.fst htup
                have hc : digitsToNat (r2.takeWhile isDigitChar) = col :=
                  congrArg (fun t => t.2.1) htup
                have hcd : String.mk (r4.takeWhile isWordChar) = code :=
                  congrArg (fun t => t.2.2.1) htup
                have hm : String.mk msgl = msg := congrArg (fun t => t.2.2.2) htup
                simp only [Bool.or_eq_true, not_or, Bool.not_eq_true, Bool.not_eq_false] at hcond
                refine ⟨cs.takeWhile isDigitChar, r2.takeWhile isDigitChar,
                  r4.takeWhile isWordChar, msgl, ?_, ne_nil_of_isEmpty_ne _ hne1,
                  list_all_takeWhile _ _, ne_nil_of_isEmpty_ne _ hne2,
                  list_all_takeWhile _ _, ne_nil_of_isEmpty_ne _ hne3,
                  list_all_takeWhile _ _, ?_, (by simpa using hcond.2),
                  hl.symm, hc.symm, hcd.symm, hm.symm⟩
                · have hr4 : List.takeWhile isWordChar r4 ++ ':' :: ' ' :: msgl = r4 := by
                    rw [← heq3]
                    exact List.takeWhile_append_dropWhile isWordChar r4
                  have hr2 : List.takeWhile isDigitChar r2 ++
                      ')' :: ':' :: ' ' :: 'e' :: 'r' :: 'r' :: 'o' :: 'r' :: ' ' :: r4 = r2 := by
                    rw [← heq2]
                    exact List.takeWhile_append_dropWhile isDigitChar r2
                  have hcs : List.takeWhile isDigitChar cs ++ ',' :: r2 = cs := by
                    rw [← heq1]
                    exact List.takeWhile_append_dropWhile isDigitChar cs
                  rw [hr4, hr2, hcs]
                · intro e
                  rw [e] at hcond
                  simp at hcond
            · exact absurd h (by simp)
        · exact absurd h (by simp)
    · exact absurd h (by simp)

theorem parseTail_complete (cs : List Char) (lineNo col : Nat) (code msg : String)
    (h : TailShape cs lineNo col code msg) :
    parseTail cs = some (lineNo, col, code, msg) := by
  obtain ⟨ds1, ds2, w, m, hcs, hne1, hall1, hne2, hall2, hne3, hall3, hne4, hall4,
    hl, hc, hcd, hm⟩ := h
  subst hcs
  have h1 := takeWhile_append_all isDigitChar ds1 ','
    (ds2 ++ ')' :: ':' :: ' ' :: 'e' :: 'r' :: 'r' :: 'o' :: 'r' :: ' ' ::
      (w ++ ':' :: ' ' :: m)) hall1 rfl
  have h2 := takeWhile_append_all isDigitChar ds2 ')'
    (':' :: ' ' :: 'e' :: 'r' :: 'r' :: 'o' :: 'r' :: ' ' :: (w ++ ':' :: ' ' :: m))
    hall2 rfl
  have h3 := takeWhile_append_all isWordChar w ':' (' ' :: m) hall3 rfl
  simp only [parseTail, h1.1, h1.2, isEmpty_false_of_ne_nil ds1 hne1, h2.1, h2.2,
    isEmpty_false_of_ne_nil ds2 hne2, h3.1, h3.2, isEmpty_false_of_ne_nil w hne3,
    isEmpty_false_of_ne_nil m hne4, hall4, Bool.not_true, Bool.or_false,
    Bool.false_eq_true, if_false]
  rw [hl, hc, hcd, hm]

theorem scanFile_cons (acc : List Char) (c : Char) (rest : List Char) :
    scanFile acc (c :: rest) =
      match (if isDot c then scanFile (acc ++ [c]) rest else none) with
      | some e => some e
      | none =>
        if c = '(' && !acc.isEmpty then
          match parseTail rest with
          | some (l, col, code, msg) =>
            some { file := String.mk acc, code := code, message := msg, line := l, column := col }
          | none => none
        else none := rfl

/-- Completeness of the backtracking search: whenever some split of the
remaining characters completes the pattern, the search succeeds. -/
theorem scanFile_isSome (cs : List Char) :
    ∀ (acc : List Char),
      (∃ pre tail, cs = pre ++ '(' :: tail ∧ acc ++ pre ≠ [] ∧ pre.all isDot = true ∧
        (parseTail tail).isSome) →
      (scanFile acc cs).isSome := by
  induction cs with
  | nil =>
    intro acc ⟨pre, tail, hcs, _, _, _⟩
    exact absurd hcs (by simp)
  | cons c cs' ih =>
    intro acc ⟨pre, tail, hcs, hne, hdot, hsome⟩
    rw [scanFile_cons]
    cases pre with
    | nil =>
      simp only [List.nil_append] at hcs hne
      obtain ⟨hc, htail⟩ := List.cons.inj hcs
      cases hdeep : (if isDot c then scanFile (acc ++ [c]) cs' else none) with
      | some e => simp
      | none =>
        simp only [hdeep]
        rw [if_pos (by
          rw [hc, isEmpty_false_of_ne_nil acc (by simpa using hne)]
          rfl)]
        obtain ⟨r, hr⟩ := Option.isSome_iff_exists.mp (htail ▸ hsome)
        rw [hr]
        simp
    | cons c₀ pre' =>
      obtain ⟨hc, hcs'⟩ := List.cons.inj hcs
      simp only [List.all_cons, Bool.and_eq_true] at hdot
      have hdeep : (scanFile (acc ++ [c]) cs').isSome :=
        ih (acc ++ [c]) ⟨pre', tail, hcs', by simp, hdot.2, hsome⟩
      obtain ⟨e, he⟩ := Option.isSome_iff_exists.mp hdeep
      rw [if_pos (hc ▸ hdot.1), he]
      simp

/-- Soundness of the backtracking search: a successful match is built from a
valid split, and from the *longest* one — the greedy choice for the file
group. -/
theorem scanFile_sound (cs : List Char) :
    ∀ (acc : List Char) (e : SpecificError),
      acc.all isDot = true →
      scanFile acc cs = some e →
      ∃ pre tail r, cs = pre ++ '(' :: tail ∧ acc ++ pre ≠ [] ∧ pre.all isDot = true ∧
        parseTail tail = some r ∧
        e = { file := String.mk (acc ++ pre), code := r.2.2.1, message := r.2.2.2,
              line := r.1, column := r.2.1 } ∧
        ∀ pre' tail', cs = pre' ++ '(' :: tail' → pre'.all isDot = true →
          (parseTail tail').isSome → pre'.length ≤ pre.length := by
  induction cs with
  | nil =>
    intro acc e _ h
    exact absurd h (by simp [scanFile])
  | cons c cs' ih =>
    intro acc e haccdot h
    rw [scanFile_cons] at h
    cases hdeep : (if isDot c then scanFile (acc ++ [c]) cs' else none) with
    | some e'' =>
      rw [hdeep] at h
      have he : e'' = e := Option.some.inj h
      subst he
      by_cases hdotc : isDot c
      · rw [if_pos hdotc] at hdeep
        obtain ⟨pre₁, tail, r, hcs', hne₁, hdot₁, hpt, hefields, hmax₁⟩ :=
          ih (acc ++ [c]) e'' (by simp [List.all_append, haccdot, hdotc]) hdeep
        refine ⟨c :: pre₁, tail, r, by rw [hcs']; simp, by simp, ?_, hpt, ?_, ?_⟩
        · simp [hdotc, hdot₁]
        · rw [hefields]
          have : (acc ++ [c]) ++ pre₁ = acc ++ c :: pre₁ := by simp
          rw [this]
        · intro pre' tail' hdec hdot' hsome'
          cases pre' with
          | nil => simp
          | cons c₀ pre'' =>
            obtain ⟨hc₀, hdec'⟩ := List.cons.inj hdec
            simp only [List.all_cons, Bool.and_eq_true] at hdot'
            have := hmax₁ pre'' tail' hdec' hdot'.2 hsome'
            simpa using Nat.succ_le_succ this
      · rw [if_neg hdotc] at hdeep
        exact absurd hdeep (by simp)
    | none =>
      rw [hdeep] at h
      by_cases hcond : (c = '(' && !acc.isEmpty) = true
      · rw [if_pos hcond] at h
        simp only [Bool.and_eq_true, decide_eq_true_eq, Bool.not_eq_true'] at hcond
        cases hpt : parseTail cs' with
        | none => rw [hpt] at h; exact absurd h (by simp)
        | some r =>
          rw [hpt] at h
          obtain ⟨l, col, code, msg⟩ := r
          have he : e = { file := String.mk acc, code := code, message := msg,
                          line := l, column := col } := (Option.some.inj h).symm
          refine ⟨[], cs', (l, col, code, msg), by rw [hcond.1]; rfl, ?_, rfl, hpt, ?_, ?_⟩
          · simpa using ne_nil_of_isEmpty_ne acc (by rw [hcond.2]; exact Bool.false_ne_true)
          · rw [he]
            simp
          · intro pre' tail' hdec hdot' hsome'
            cases pre' with
            | nil => simp
            | cons c₀ pre'' =>
              obtain ⟨hc₀, hdec'⟩ := List.cons.inj hdec
              simp only [List.all_cons, Bool.and_eq_true] at hdot'
              have hds : (scanFile (acc ++ [c]) cs').isSome :=
                scanFile_isSome cs' (acc ++ [c])
                  ⟨pre'', tail', hdec', by simp, hdot'.2, hsome'⟩
              have hdotc : isDot c = true := by
                rw [hcond.1]
                rfl
              rw [if_pos hdotc] at hdeep
              rw [hdeep] at hds
              exact absurd hds (by simp)
      · rw [if_neg hcond] at h
        exact absurd h (by simp)

/-- A line matches the diagnostic grammar producing record `e`: it decomposes
as `<file>'('<tail>` where the tail has the fixed shape, `file` is a nonempty
run of `.`-matchable characters, and `e` carries the captured fields. -/
def LineMatch (cs : List Char) (e : SpecificError) : Prop :=
  ∃ pre tail, cs = pre ++ '(' :: tail ∧ pre ≠ [] ∧ pre.all isDot = true ∧
    TailShape tail e.line e.column e.code e.message ∧ e.file = String.mk pre

theorem string_mk_length (L : List Char) : (String.mk L).length = L.length := rfl

theorem matchErrorLine_iff_greedy (line : String) (e : SpecificError) :
    matchErrorLine line = some e ↔
      (LineMatch line.toList e ∧
        ∀ e', LineMatch line.toList e' → e'.file.length ≤ e.file.length) := by
  constructor
  · intro h
    obtain ⟨pre, tail, r, hcs, hne, hdot, hpt, hef, hmax⟩ :=
      scanFile_sound line.toList [] e rfl h
    obtain ⟨l, col, cd, m⟩ := r
    subst hef
    have hpre : ([] : List Char) ++ pre = pre := rfl
    rw [hpre] at hne ⊢
    constructor
    · exact ⟨pre, tail, hcs, hne, hdot, parseTail_sound tail l col cd m hpt, rfl⟩
    · intro e' he'
      obtain ⟨pre', tail', hcs', hne', hdot', hts', hfile'⟩ := he'
      have hsome' : (parseTail tail').isSome := by
        rw [parseTail_complete tail' e'.line e'.column e'.code e'.message hts']
        rfl
      have := hmax pre' tail' hcs' hdot' hsome'
      rw [hfile', string_mk_length]
      simpa [string_mk_length] using this
  · rintro ⟨⟨pre₀, tail₀, hcs₀, hne₀, hdot₀, hts₀, hfile₀⟩, hmaxE⟩
    have hpt₀ : parseTail tail₀ = some (e.line, e.column, e.code, e.message) :=
      parseTail_complete tail₀ e.line e.column e.code e.message hts₀
    have hsome : (scanFile [] line.toList).isSome :=
      scanFile_isSome line.toList []
        ⟨pre₀, tail₀, hcs₀, by simpa using hne₀, hdot₀, by rw [hpt₀]; rfl⟩
    obtain ⟨e'', he''⟩ := Option.isSome_iff_exists.mp hsome
    obtain ⟨pre'', tail'', r'', hcs'', hne'', hdot'', hpt'', hef'', hmax''⟩ :=
      scanFile_sound line.toList [] e'' rfl he''
    have hpre'' : ([] : List Char) ++ pre'' = pre'' := rfl
    rw [hpre''] at hne'' hef''
    -- the two decompositions have the same length …
    have hle₁ : pre₀.length ≤ pre''.length :=
      hmax'' pre₀ tail₀ hcs₀ hdot₀ (by rw [hpt₀]; rfl)
    have hlm'' : LineMatch line.toList e'' := by
      obtain ⟨l, col, cd, m⟩ := r''
      subst hef''
      exact ⟨pre'', tail'', hcs'', hne'', hdot'',
        parseTail_sound tail'' l col cd m hpt'', rfl⟩
    have hle₂ : pre''.length ≤ pre₀.length := by
      have := hmaxE e'' hlm''
      obtain ⟨l, col, cd, m⟩ := r''
      subst hef''
      rw [hfile₀] at this
      simpa [string_mk_length] using this
    -- … hence they are the same decomposition
    have hlen : pre₀.length = pre''.length := Nat.le_antisymm hle₁ hle₂
    obtain ⟨hpre_eq, htail_eq⟩ :=
      List.append_inj (hcs₀.symm.trans hcs'') hlen
    have htails : tail₀ = tail'' := by
      injection htail_eq
    show scanFile [] line.toList = some e
    rw [he'']
    congr 1
    obtain ⟨l, col, cd, m⟩ := r''
    subst hef''
    rw [← htails] at hpt''
    rw [hpt₀] at hpt''
    have hq := Option.some.inj hpt''
    simp only [Prod.mk.injEq] at hq
    obtain ⟨h1, h2, h3, h4⟩ := hq
    cases e
    simp only [] at h1 h2 h3 h4 hfile₀
    rw [← h1, ← h2, ← h3, ← h4, ← hpre_eq, ← hfile₀]

/-- Claim C8, amended: The parser matches exactly the lines of the shape
`<file>(<line>,<column>): error <code>: <message>` — where `line` and `column`
are decimal digit runs, `code` a word token, `message` nonempty — and the
`file` captured is the *greedy* prefix: the longest one, up to the *last* `(`
that begins a matching suffix (the leading `(.+)` of the pattern is greedy).
Every line not matching this shape is silently discarded: it leaves the parse
state untouched and never causes an error or a partial record. -/
theorem parser_matches_exactly_grammar :
    (∀ (line : String) (e : SpecificError),
      matchErrorLine line = some e ↔
        (LineMatch line.toList e ∧
          ∀ e', LineMatch line.toList e' → e'.file.length ≤ e.file.length)) ∧
    (∀ (opts : ErrorOptions) (lines1 : List String) (line : String) (lines2 : List String),
      matchErrorLine line = none →
      parseLines opts (lines1 ++ line :: lines2) = parseLines opts (lines1 ++ lines2)) := by
  constructor
  · exact matchErrorLine_iff_greedy
  · intro opts lines1 line lines2 h
    unfold parseLines
    rw [List.foldl_append, List.foldl_append, List.foldl_cons]
    congr 1
    show parseStep opts (List.foldl (parseStep opts) ⟨[], []⟩ lines1) line = _
    unfold parseStep
    rw [h]

/-- Claim C8, counterexample: The file group is greedy, not non-greedy: on a line
whose message itself contains a diagnostic-shaped suffix, the captured file is
the *longest* prefix (up to the last viable `(`), not the prefix up to the
first `(`. -/
theorem parser_file_group_greedy_not_nongreedy :
    matchErrorLine "a(1,1): error E1: b(2,2): error E2: m" =
      some { code := "E2", column := 2, file := "a(1,1): error E1: b",
             line := 2, message := "m" } ∧
    ("a(1,1): error E1: b" : String) ≠ "a" :=
  ⟨by decide, by decide⟩

/-- Claim C8, amended, witness: A concrete matching line satisfies the grammar
characterization, and a concrete non-matching line is discarded. -/
theorem parser_matches_exactly_grammar_witness :
    (LineMatch ("a.ts(1,2): error TS1: m").toList ⟨"TS1", 2, "a.ts", 1, "m"⟩ ∧
      ∀ e', LineMatch ("a.ts(1,2): error TS1: m").toList e' →
        e'.file.length ≤ (("a.ts" : String)).length) ∧
    parseLines ⟨false⟩ (["a.ts(1,2): error TS1: m"] ++ "compiler noise" :: []) =
      parseLines ⟨false⟩ (["a.ts(1,2): error TS1: m"] ++ []) :=
  ⟨(parser_matches_exactly_grammar.1 "a.ts(1,2): error TS1: m"
      ⟨"TS1", 2, "a.ts", 1, "m"⟩).mp (by decide),
    parser_matches_exactly_grammar.2 ⟨false⟩ ["a.ts(1,2): error TS1: m"]
      "compiler noise" [] (by decide)⟩

end TscBaseline
